import Mathlib

/-!
# Verification of the `cache` repository (single-shard LRU cache + sharded router)

Shallow embedding of `cache.go` (the TTL-bearing `LRUCache`) and of the
`ComboLRUCache` router (constructor as in the snapshot that threads the TTL
through to every shard).  Go machine integers (`int`, `time.Duration`,
`int64` nanoseconds) are modelled as `Int`; `time.Time` is an `Int` instant
and `time.Since(ts)` at instant `now` is `now - ts`.  The `uint32` result of
a caller-supplied hash function is modelled as `Nat` reduced `% 2^32`.

The Go `container/list` recency list is modelled as a `List` of items with
the front at the head.  The Go map `store : map[interface{}]*list.Element`
holds pointers into that list; in the embedding the map is represented by
its key set (`storeKeys`) and the pointed-to item is recovered by key lookup
in the list.  This identification is faithful on every state reachable from
the constructor, where the map's keys and the list's keys coincide and are
distinct (the `WF` invariant proved below); branches that would dereference
a dangling pointer in Go are unreachable under `WF`.
-/

set_option autoImplicit false

/-- Errors of the cache package: `ErrCacheNotInit` and `ErrItemNotFound`. -/
inductive CacheErr where
  | notInit
  | notFound
deriving DecidableEq, Repr

/-- The `item` struct of `cache.go`: key, value and last-set timestamp. -/
structure Item (K V : Type) where
  key : K
  val : V
  ts : Int
deriving DecidableEq, Repr

/-- The `LRUCache` struct of `cache.go`.  `l` is the recency list (head =
front = most recently used); `storeKeys` is the key set of the Go map
`store`; `count` is the live-entry counter; `sz` the capacity; `expiry`
the TTL (`0` or negative = no expiry). -/
structure LRUCache (K V : Type) where
  sz : Int
  count : Int
  expiry : Int
  storeKeys : List K
  l : List (Item K V)
deriving DecidableEq, Repr

variable {K V : Type} [DecidableEq K]

/-- Assignment `store[key] = elm` of the Go map, viewed on its key set:
inserting a key already present leaves the key set unchanged. -/
def mapInsert (m : List K) (k : K) : List K :=
  if m.contains k then m else k :: m

/-- `delete(store, key)` of the Go map, viewed on its key set. -/
def mapDelete (m : List K) (k : K) : List K :=
  m.erase k

/-- The zero-argument part of `NewLRUCache`: the struct literal it builds. -/
def LRUCache.mk0 (sz expiry : Int) : LRUCache K V :=
  { sz := sz, count := 0, expiry := expiry, storeKeys := [], l := [] }

/-- `NewLRUCache(sz, expiry)`.  Go calls `log.Fatal` when `sz <= 0`
(process terminates), modelled as `none`. -/
def newLRUCache (sz expiry : Int) : Option (LRUCache K V) :=
  if sz ≤ 0 then none else some (LRUCache.mk0 sz expiry)

/-- `removeItem(elm)` of `cache.go` for a non-nil element, located by its
key: deletes the key from the map, removes the (unique, under `WF`)
element with that key from the list, and decrements the counter. -/
def LRUCache.removeItem (c : LRUCache K V) (k : K) : LRUCache K V :=
  { c with storeKeys := mapDelete c.storeKeys k
         , l := c.l.eraseP (fun i => i.key == k)
         , count := c.count - 1 }

/-- `updateItem(elm, val)` of `cache.go`: sets `itm.val = val` and moves the
element to the front of the list.  The timestamp is NOT touched (unlike an
older snapshot of this file).  The `none` branch is unreachable under `WF`
(it would be a dangling `*list.Element` in Go). -/
def LRUCache.updateItem (c : LRUCache K V) (k : K) (v : V) : LRUCache K V :=
  match c.l.find? (fun i => i.key == k) with
  | none => c
  | some itm =>
      { c with l := { key := k, val := v, ts := itm.ts } ::
                    c.l.eraseP (fun i => i.key == k) }

/-- The `if c.count >= c.sz { last := c.l.Back(); c.removeItem(last) }`
block of `addItem` (where `removeItem(nil)` is a no-op). -/
def LRUCache.evictIfFull (c : LRUCache K V) : LRUCache K V :=
  if c.count ≥ c.sz then
    match c.l.getLast? with
    | none => c
    | some last => c.removeItem last.key
  else c

/-- `addItem(key, val)` of `cache.go` at instant `now`: if `count >= sz`,
remove the back (oldest) element via `removeItem`; then push the new item
to the front, record the key in the map and increment the counter. -/
def LRUCache.addItem (c : LRUCache K V) (k : K) (v : V) (now : Int) :
    LRUCache K V :=
  { c.evictIfFull with
      l := { key := k, val := v, ts := now } :: c.evictIfFull.l
    , storeKeys := mapInsert c.evictIfFull.storeKeys k
    , count := c.evictIfFull.count + 1 }

/-- `Get(key)` of `cache.go` on a non-nil cache at instant `now`.  On a map
hit the value is read first; if a TTL is configured and exceeded the entry
is removed, otherwise it is promoted; in BOTH cases `val, nil` is returned
(the function has a single `return val, nil`).  The inner `none` branch is
unreachable under `WF`. -/
def LRUCache.get (c : LRUCache K V) (k : K) (now : Int) :
    Except CacheErr V × LRUCache K V :=
  if c.storeKeys.contains k then
    match c.l.find? (fun i => i.key == k) with
    | some itm =>
        let val := itm.val
        if c.expiry > 0 ∧ now - itm.ts > c.expiry then
          (Except.ok val, c.removeItem k)
        else
          (Except.ok val, c.updateItem k val)
    | none => (Except.error CacheErr.notFound, c)
  else
    (Except.error CacheErr.notFound, c)

/-- `Set(key, val)` of `cache.go` on a non-nil cache at instant `now`:
update in place when the map has the key, otherwise add. -/
def LRUCache.set (c : LRUCache K V) (k : K) (v : V) (now : Int) :
    LRUCache K V :=
  if c.storeKeys.contains k then c.updateItem k v
  else c.addItem k v now

/-- `Items()` of `cache.go` on a non-nil cache: `c.l.Len()`. -/
def LRUCache.items (c : LRUCache K V) : Int :=
  (c.l.length : Int)

/-- `Get` including the nil-receiver guard (`ErrCacheNotInit`). -/
def getOp : Option (LRUCache K V) → K → Int →
    Except CacheErr V × Option (LRUCache K V)
  | none, _, _ => (Except.error CacheErr.notInit, none)
  | some c, k, now => let r := c.get k now; (r.1, some r.2)

/-- `Set` including the nil-receiver guard; a non-nil `Set` returns `nil`
error (`none`). -/
def setOp : Option (LRUCache K V) → K → V → Int →
    Option CacheErr × Option (LRUCache K V)
  | none, _, _, _ => (some CacheErr.notInit, none)
  | some c, k, v, now => (none, some (c.set k v now))

/-- `Items()` including the nil-receiver guard: a nil cache returns `0`
(the function's signature has no error channel). -/
def itemsOp : Option (LRUCache K V) → Int
  | none => 0
  | some c => c.items

/-- The keys of the recency list, front first. -/
def keysOf (c : LRUCache K V) : List K :=
  c.l.map Item.key

/-- The value currently associated with `k` (via the recency list). -/
def lookupVal (c : LRUCache K V) (k : K) : Option V :=
  (c.l.find? (fun i => i.key == k)).map Item.val

/-! ## The sharded router (`ComboLRUCache`) -/

/-- The `uint32` conversion: a Go `HashFunc` returns an unsigned 32-bit
integer. -/
def uint32 (n : Nat) : Nat := n % 4294967296

/-- The `ComboLRUCache` struct: a hash function and a slice of shards. -/
structure ComboLRUCache (K V : Type) where
  hash : K → Nat
  caches : List (LRUCache K V)

/-- The `if bs < 1 { bs = 1 }` normalization of `NewComboLRUCache`. -/
def normBuckets (bs : Int) : Int := if bs < 1 then 1 else bs

/-- The `if sz < bs { sz = bs }` normalization of `NewComboLRUCache`
(`bs` already normalized). -/
def normSize (sz bs1 : Int) : Int := if sz < bs1 then bs1 else sz

/-- `NewComboLRUCache(sz, bs, expiry, h)`: normalize `bs` to at least 1,
then `sz` to at least `bs`, and create `bs` shards, each built by
`NewLRUCache(sz/bs, expiry)` (Go `int` division truncates: `Int.tdiv`).
`none` models the (unreachable) `log.Fatal` of a shard constructor. -/
def newComboLRUCache (sz bs expiry : Int) (h : K → Nat) :
    Option (ComboLRUCache K V) :=
  match newLRUCache (K := K) (V := V)
      ((normSize sz (normBuckets bs)).tdiv (normBuckets bs)) expiry with
  | none => none
  | some shard =>
      some { hash := h, caches := List.replicate (normBuckets bs).toNat shard }

/-- `routeKey`: `hash(key) % uint32(len(caches))`, as a shard index. -/
def ComboLRUCache.routeKey (cc : ComboLRUCache K V) (k : K) : Nat :=
  uint32 (cc.hash k) % cc.caches.length

/-- Router `Get`: delegate to the routed shard.  The `none` branch is
unreachable for a constructed router (at least one shard; Go would panic
on a zero-shard modulo). -/
def ComboLRUCache.get (cc : ComboLRUCache K V) (k : K) (now : Int) :
    Except CacheErr V × ComboLRUCache K V :=
  match cc.caches[cc.routeKey k]? with
  | none => (Except.error CacheErr.notFound, cc)
  | some sh =>
      ((sh.get k now).1,
       { cc with caches := cc.caches.set (cc.routeKey k) (sh.get k now).2 })

/-- Router `Set`: delegate to the routed shard (a non-nil shard `Set`
returns `nil` error).  The `none` branch is unreachable as in `get`. -/
def ComboLRUCache.set (cc : ComboLRUCache K V) (k : K) (v : V) (now : Int) :
    Option CacheErr × ComboLRUCache K V :=
  match cc.caches[cc.routeKey k]? with
  | none => (none, cc)
  | some sh =>
      (none,
       { cc with caches := cc.caches.set (cc.routeKey k) (sh.set k v now) })

/-- Router `Items()`: the sum of the shards' counts. -/
def ComboLRUCache.items (cc : ComboLRUCache K V) : Int :=
  cc.caches.foldl (fun s ca => s + ca.items) 0

/-! ## Operation sequences and observable traces -/

/-- One cache operation, with its invocation instant where relevant. -/
inductive CacheOp (K V : Type) where
  | get (k : K) (now : Int)
  | set (k : K) (v : V) (now : Int)
  | items
deriving Repr

/-- The caller-visible outcome of one operation. -/
inductive CacheObs (V : Type) where
  | got (r : Except CacheErr V)
  | setRes (e : Option CacheErr)
  | counted (n : Int)
deriving Repr

/-- One step of a (non-nil) single-shard cache. -/
def LRUCache.step (c : LRUCache K V) :
    CacheOp K V → CacheObs V × LRUCache K V
  | CacheOp.get k now => let r := c.get k now; (CacheObs.got r.1, r.2)
  | CacheOp.set k v now => (CacheObs.setRes none, c.set k v now)
  | CacheOp.items => (CacheObs.counted c.items, c)

/-- The trace of a (non-nil) single-shard cache over an operation list. -/
def LRUCache.run (c : LRUCache K V) : List (CacheOp K V) → List (CacheObs V)
  | [] => []
  | op :: ops => let r := c.step op; r.1 :: r.2.run ops

/-- The state of a (non-nil) single-shard cache after an operation list. -/
def LRUCache.applyOps (c : LRUCache K V) :
    List (CacheOp K V) → LRUCache K V
  | [] => c
  | op :: ops => ((c.step op).2).applyOps ops

/-- One step of the router. -/
def ComboLRUCache.step (cc : ComboLRUCache K V) :
    CacheOp K V → CacheObs V × ComboLRUCache K V
  | CacheOp.get k now => let r := cc.get k now; (CacheObs.got r.1, r.2)
  | CacheOp.set k v now => let r := cc.set k v now; (CacheObs.setRes r.1, r.2)
  | CacheOp.items => (CacheObs.counted cc.items, cc)

/-- The trace of the router over an operation list. -/
def ComboLRUCache.run (cc : ComboLRUCache K V) :
    List (CacheOp K V) → List (CacheObs V)
  | [] => []
  | op :: ops => let r := cc.step op; r.1 :: r.2.run ops

/-- Folding a list of `Set` calls (key, value, instant) into a cache. -/
def LRUCache.setAll (c : LRUCache K V) :
    List (K × V × Int) → LRUCache K V
  | [] => c
  | kvt :: rest => (c.set kvt.1 kvt.2.1 kvt.2.2).setAll rest

/-! ## Well-formedness: the reachable-state invariant -/

/-- The invariant tying the Go map to the recency list: the map's key set
is a permutation of the list's keys, the list's keys are distinct (so
each `*list.Element` pointer is determined by its key), and the counter
equals the list length. -/
structure WF (c : LRUCache K V) : Prop where
  perm : c.storeKeys.Perm (keysOf c)
  nodup : (keysOf c).Nodup
  countEq : c.count = (c.l.length : Int)

/-- Equality decision for operation results, used by concrete evaluations. -/
instance exceptDecEq {E A : Type} [DecidableEq E] [DecidableEq A] :
    DecidableEq (Except E A) := fun a b =>
  match a, b with
  | Except.ok x, Except.ok y =>
      if h : x = y then Decidable.isTrue (by rw [h])
      else Decidable.isFalse (by intro hc; cases hc; exact h rfl)
  | Except.error x, Except.error y =>
      if h : x = y then Decidable.isTrue (by rw [h])
      else Decidable.isFalse (by intro hc; cases hc; exact h rfl)
  | Except.ok _, Except.error _ => Decidable.isFalse (by intro hc; cases hc)
  | Except.error _, Except.ok _ => Decidable.isFalse (by intro hc; cases hc)

/-! ## List helper lemmas -/

theorem list_contains_iff {m : List K} {k : K} :
    m.contains k = true ↔ k ∈ m := by
  simp [List.contains]

theorem find?_key_eq {l : List (Item K V)} {k : K} {itm : Item K V}
    (h : l.find? (fun i => i.key == k) = some itm) : itm.key = k := by
  have := List.find?_some h
  simpa using this

theorem find?_key_mem_keys {l : List (Item K V)} {k : K} {itm : Item K V}
    (h : l.find? (fun i => i.key == k) = some itm) : k ∈ l.map Item.key := by
  have hmem := List.mem_of_find?_eq_some h
  have hk := find?_key_eq h
  exact List.mem_map.2 ⟨itm, hmem, hk⟩

theorem keys_eraseP {l : List (Item K V)} {k : K} :
    (l.eraseP (fun i => i.key == k)).map Item.key =
      (l.map Item.key).eraseP (fun x => x == k) := by
  rw [List.eraseP_map]
  rfl

theorem erase_eq_eraseP_beq (ks : List K) (k : K) :
    ks.erase k = ks.eraseP (fun x => x == k) := by
  rw [List.erase_eq_eraseP]
  congr 1
  funext x
  simp [beq_iff_eq, eq_comm]

theorem perm_cons_eraseP_self {ks : List K} {k : K} (h : k ∈ ks) :
    ks.Perm (k :: ks.eraseP (fun x => x == k)) := by
  obtain ⟨a, l₁, l₂, -, ha, hks, herase⟩ :=
    List.exists_of_eraseP (p := fun x => x == k) h (by simp)
  have hak : a = k := by simpa using ha
  subst hak
  rw [herase, hks]
  exact List.perm_middle

theorem length_eraseP_key {l : List (Item K V)} {k : K}
    (h : k ∈ l.map Item.key) :
    (l.eraseP (fun i => i.key == k)).length + 1 = l.length := by
  obtain ⟨itm, hmem, hkey⟩ := List.mem_map.1 h
  exact List.length_eraseP_add_one hmem (by simp [hkey])

theorem find?_key_eraseP_ne {l : List (Item K V)} {k k' : K} (h : k' ≠ k) :
    (l.eraseP (fun i => i.key == k)).find? (fun i => i.key == k') =
      l.find? (fun i => i.key == k') := by
  induction l with
  | nil => rfl
  | cons x xs ih =>
      by_cases hx : x.key = k
      · rw [List.eraseP_cons_of_pos (by simp [hx])]
        rw [List.find?_cons]
        have : (x.key == k') = false := by
          simp [hx]
          exact fun he => h he.symm
        rw [this]
      · rw [List.eraseP_cons_of_neg (by simp [hx])]
        rw [List.find?_cons, List.find?_cons]
        cases hxk : (x.key == k') with
        | true => rfl
        | false => exact ih

theorem mem_of_getLast?_some {A : Type} {l : List A} {a : A}
    (h : l.getLast? = some a) : a ∈ l := by
  obtain ⟨hne, he⟩ := List.mem_getLast?_eq_getLast (Option.mem_def.2 h)
  exact he ▸ List.getLast_mem hne

theorem eraseP_getLast_of_nodup {ks : List K} (h : ks ≠ []) (hn : ks.Nodup) :
    ks.eraseP (fun x => x == ks.getLast h) = ks.dropLast := by
  induction ks with
  | nil => exact absurd rfl h
  | cons a t ih =>
      cases t with
      | nil => simp
      | cons b t' =>
          have hne : a ≠ (b :: t').getLast (by simp) := by
            intro he
            have : a ∈ b :: t' := he ▸ List.getLast_mem (by simp)
            exact (List.nodup_cons.1 hn).1 this
          have hlast : (a :: b :: t').getLast h = (b :: t').getLast (by simp) := by
            simp [List.getLast]
          rw [hlast, List.eraseP_cons_of_neg (by simp [hne]),
              ih (by simp) (List.nodup_cons.1 hn).2]
          rfl


/-! ## Branch characterizations of the operations -/

theorem updateItem_of_find? {c : LRUCache K V} {k : K} {itm : Item K V}
    (v : V) (hf : c.l.find? (fun i => i.key == k) = some itm) :
    c.updateItem k v =
      { c with l := { key := k, val := v, ts := itm.ts } ::
                    c.l.eraseP (fun i => i.key == k) } := by
  unfold LRUCache.updateItem
  rw [hf]

theorem updateItem_of_none {c : LRUCache K V} {k : K} (v : V)
    (hf : c.l.find? (fun i => i.key == k) = none) :
    c.updateItem k v = c := by
  unfold LRUCache.updateItem
  rw [hf]

theorem get_of_not_contains {c : LRUCache K V} {k : K} (now : Int)
    (h : c.storeKeys.contains k = false) :
    c.get k now = (Except.error CacheErr.notFound, c) := by
  unfold LRUCache.get
  rw [h]
  rfl

theorem get_expired {c : LRUCache K V} {k : K} {itm : Item K V} (now : Int)
    (hcont : c.storeKeys.contains k = true)
    (hf : c.l.find? (fun i => i.key == k) = some itm)
    (hexp : c.expiry > 0 ∧ now - itm.ts > c.expiry) :
    c.get k now = (Except.ok itm.val, c.removeItem k) := by
  unfold LRUCache.get
  rw [hcont, if_pos rfl, hf]
  show (if c.expiry > 0 ∧ now - itm.ts > c.expiry
        then (Except.ok itm.val, c.removeItem k)
        else (Except.ok itm.val, c.updateItem k itm.val)) = _
  exact if_pos hexp

theorem get_live {c : LRUCache K V} {k : K} {itm : Item K V} (now : Int)
    (hcont : c.storeKeys.contains k = true)
    (hf : c.l.find? (fun i => i.key == k) = some itm)
    (hexp : ¬(c.expiry > 0 ∧ now - itm.ts > c.expiry)) :
    c.get k now = (Except.ok itm.val, c.updateItem k itm.val) := by
  unfold LRUCache.get
  rw [hcont, if_pos rfl, hf]
  show (if c.expiry > 0 ∧ now - itm.ts > c.expiry
        then (Except.ok itm.val, c.removeItem k)
        else (Except.ok itm.val, c.updateItem k itm.val)) = _
  exact if_neg hexp

theorem set_of_contains {c : LRUCache K V} {k : K} (v : V) (now : Int)
    (h : c.storeKeys.contains k = true) :
    c.set k v now = c.updateItem k v := by
  unfold LRUCache.set
  rw [h, if_pos rfl]

theorem set_of_not_contains {c : LRUCache K V} {k : K} (v : V) (now : Int)
    (h : c.storeKeys.contains k = false) :
    c.set k v now = c.addItem k v now := by
  unfold LRUCache.set
  rw [h]
  rfl

/-! ## Preservation of the `WF` invariant -/

theorem wf_mk0 (sz e : Int) : WF (LRUCache.mk0 (K := K) (V := V) sz e) := by
  constructor <;> simp [LRUCache.mk0, keysOf]

theorem wf_updateItem {c : LRUCache K V} (hc : WF c) (k : K) (v : V) :
    WF (c.updateItem k v) := by
  cases hf : c.l.find? (fun i => i.key == k) with
  | none => rw [updateItem_of_none v hf]; exact hc
  | some itm =>
      rw [updateItem_of_find? v hf]
      have hkmem : k ∈ keysOf c := find?_key_mem_keys hf
      have hperm : (keysOf c).Perm
          (k :: (c.l.eraseP (fun i => i.key == k)).map Item.key) := by
        rw [keys_eraseP]
        exact perm_cons_eraseP_self hkmem
      refine ⟨?_, ?_, ?_⟩
      · show c.storeKeys.Perm _
        simp only [keysOf, List.map_cons]
        exact hc.perm.trans hperm
      · show List.Nodup _
        simp only [keysOf, List.map_cons]
        exact hperm.nodup hc.nodup
      · show c.count = _
        have hlen := length_eraseP_key (l := c.l) (k := k) hkmem
        simp only [List.length_cons]
        rw [hc.countEq]
        omega

theorem wf_removeItem {c : LRUCache K V} (hc : WF c) {k : K}
    (hk : k ∈ keysOf c) : WF (c.removeItem k) := by
  have hkeys : keysOf (c.removeItem k) =
      (keysOf c).eraseP (fun x => x == k) := by
    simp [LRUCache.removeItem, keysOf, keys_eraseP]
  refine ⟨?_, ?_, ?_⟩
  · show (mapDelete c.storeKeys k).Perm _
    rw [hkeys, mapDelete]
    have h1 : (c.storeKeys.erase k).Perm ((keysOf c).erase k) :=
      hc.perm.erase k
    rwa [erase_eq_eraseP_beq (keysOf c) k] at h1
  · rw [hkeys]
    exact hc.nodup.sublist (List.eraseP_sublist _)
  · show c.count - 1 = _
    have hlen := length_eraseP_key (l := c.l) (k := k) hk
    have : (c.removeItem k).l = c.l.eraseP (fun i => i.key == k) := rfl
    rw [this, hc.countEq]
    omega

theorem wf_push {c : LRUCache K V} (hc : WF c) {k : K} (v : V) (now : Int)
    (hk : k ∉ c.storeKeys) :
    WF { c with l := { key := k, val := v, ts := now } :: c.l
              , storeKeys := mapInsert c.storeKeys k
              , count := c.count + 1 } := by
  have hkk : k ∉ keysOf c := fun hm => hk (hc.perm.mem_iff.2 hm)
  have hci : mapInsert c.storeKeys k = k :: c.storeKeys := by
    have hcf : c.storeKeys.contains k = false := by
      cases hcc : c.storeKeys.contains k with
      | false => rfl
      | true => exact absurd (list_contains_iff.1 hcc) hk
    unfold mapInsert
    rw [hcf]
    simp
  refine ⟨?_, ?_, ?_⟩
  · show (mapInsert c.storeKeys k).Perm _
    rw [hci]
    simp only [keysOf, List.map_cons]
    exact hc.perm.cons k
  · simp only [keysOf, List.map_cons]
    exact List.Nodup.cons hkk hc.nodup
  · show c.count + 1 = _
    simp only [List.length_cons]
    rw [hc.countEq]
    omega

theorem evictIfFull_cases (c : LRUCache K V) :
    (¬c.count ≥ c.sz ∧ c.evictIfFull = c) ∨
    (c.count ≥ c.sz ∧ c.l.getLast? = none ∧ c.evictIfFull = c) ∨
    ∃ last, c.l.getLast? = some last ∧ c.count ≥ c.sz ∧
      c.evictIfFull = c.removeItem last.key := by
  unfold LRUCache.evictIfFull
  by_cases hfull : c.count ≥ c.sz
  · rw [if_pos hfull]
    cases hlast : c.l.getLast? with
    | none => right; left; exact ⟨hfull, rfl, rfl⟩
    | some last => right; right; exact ⟨last, rfl, hfull, rfl⟩
  · left; rw [if_neg hfull]
    exact ⟨hfull, rfl⟩

theorem wf_evictIfFull {c : LRUCache K V} (hc : WF c) : WF c.evictIfFull := by
  rcases evictIfFull_cases c with ⟨-, heq⟩ | ⟨-, -, heq⟩ |
    ⟨last, hlast, -, heq⟩
  · rw [heq]; exact hc
  · rw [heq]; exact hc
  · rw [heq]
    exact wf_removeItem hc
      (List.mem_map.2 ⟨last, mem_of_getLast?_some hlast, rfl⟩)

theorem evictIfFull_storeKeys_subset (c : LRUCache K V) :
    c.evictIfFull.storeKeys ⊆ c.storeKeys := by
  rcases evictIfFull_cases c with ⟨-, heq⟩ | ⟨-, -, heq⟩ |
    ⟨last, -, -, heq⟩
  · rw [heq]
    exact fun _ hm => hm
  · rw [heq]
    exact fun _ hm => hm
  · rw [heq]
    exact (List.erase_sublist last.key c.storeKeys).subset

theorem wf_addItem {c : LRUCache K V} (hc : WF c) {k : K} (v : V) (now : Int)
    (hk : k ∉ c.storeKeys) : WF (c.addItem k v now) := by
  show WF { c.evictIfFull with
      l := { key := k, val := v, ts := now } :: c.evictIfFull.l
    , storeKeys := mapInsert c.evictIfFull.storeKeys k
    , count := c.evictIfFull.count + 1 }
  exact wf_push (wf_evictIfFull hc) v now
    (fun hm => hk (evictIfFull_storeKeys_subset c hm))

theorem wf_set {c : LRUCache K V} (hc : WF c) (k : K) (v : V) (now : Int) :
    WF (c.set k v now) := by
  cases hcc : c.storeKeys.contains k with
  | true => rw [set_of_contains v now hcc]; exact wf_updateItem hc k v
  | false =>
      rw [set_of_not_contains v now hcc]
      exact wf_addItem hc v now (fun hm => by
        have h2 := list_contains_iff.2 hm
        rw [hcc] at h2
        exact Bool.noConfusion h2)

theorem wf_get {c : LRUCache K V} (hc : WF c) (k : K) (now : Int) :
    WF (c.get k now).2 := by
  cases hcc : c.storeKeys.contains k with
  | false => rw [get_of_not_contains now hcc]; exact hc
  | true =>
      cases hf : c.l.find? (fun i => i.key == k) with
      | none =>
          unfold LRUCache.get
          rw [hcc, if_pos rfl, hf]
          exact hc
      | some itm =>
          have hkmem : k ∈ keysOf c := find?_key_mem_keys hf
          by_cases hexp : c.expiry > 0 ∧ now - itm.ts > c.expiry
          · rw [get_expired now hcc hf hexp]
            exact wf_removeItem hc hkmem
          · rw [get_live now hcc hf hexp]
            exact wf_updateItem hc k itm.val

theorem wf_step {c : LRUCache K V} (hc : WF c) (op : CacheOp K V) :
    WF (c.step op).2 := by
  cases op with
  | get k now => exact wf_get hc k now
  | set k v now => exact wf_set hc k v now
  | items => exact hc

theorem wf_applyOps {c : LRUCache K V} (hc : WF c)
    (ops : List (CacheOp K V)) : WF (c.applyOps ops) := by
  induction ops generalizing c with
  | nil => exact hc
  | cons op ops ih => exact ih (wf_step hc op)

theorem wf_setAll {c : LRUCache K V} (hc : WF c)
    (kvs : List (K × V × Int)) : WF (c.setAll kvs) := by
  induction kvs generalizing c with
  | nil => exact hc
  | cons kvt rest ih => exact ih (wf_set hc kvt.1 kvt.2.1 kvt.2.2)

/-! ## Claim C3: the capacity-2 recency scenario -/

/-- C3: on a single-shard cache of capacity 2 (no TTL): inserting
"A"→1, "B"→2, "C"→3 in order evicts "A" (`Count() = 2`, `Get("A")` fails
NotFound, `Get("B") = 2`, `Get("C") = 3`, leaving {B, C}); whereas
inserting "A", "B", then `Get("A")`, then inserting "C" evicts "B",
leaving {A, C} with the values last set. -/
theorem capacity_two_scenario :
    (((((LRUCache.mk0 2 0 : LRUCache String Nat).set "A" 1 0).set "B" 2 0).set
        "C" 3 0).items = 2
    ∧ keysOf ((((LRUCache.mk0 2 0 : LRUCache String Nat).set "A" 1 0).set
        "B" 2 0).set "C" 3 0) = ["C", "B"]
    ∧ (((((LRUCache.mk0 2 0 : LRUCache String Nat).set "A" 1 0).set
        "B" 2 0).set "C" 3 0).get "A" 0).1 = Except.error CacheErr.notFound
    ∧ (((((LRUCache.mk0 2 0 : LRUCache String Nat).set "A" 1 0).set
        "B" 2 0).set "C" 3 0).get "B" 0).1 = Except.ok 2
    ∧ ((((((LRUCache.mk0 2 0 : LRUCache String Nat).set "A" 1 0).set
        "B" 2 0).set "C" 3 0).get "B" 0).2.get "C" 0).1 = Except.ok 3)
    ∧ (keysOf (((((LRUCache.mk0 2 0 : LRUCache String Nat).set "A" 1 0).set
        "B" 2 0).get "A" 0).2.set "C" 3 0) = ["C", "A"]
    ∧ ((((((LRUCache.mk0 2 0 : LRUCache String Nat).set "A" 1 0).set
        "B" 2 0).get "A" 0).2.set "C" 3 0).get "A" 0).1 = Except.ok 1
    ∧ ((((((LRUCache.mk0 2 0 : LRUCache String Nat).set "A" 1 0).set
        "B" 2 0).get "A" 0).2.set "C" 3 0).get "C" 0).1 = Except.ok 3) := by
  decide

/-! ## Claim C1: expired entries on Get (code bug) -/

/-- C1 (code vs. claim): capacity 2, TTL 5; `Set(0, 1)` at t = 0, then
`Get(0)` at t = 10 (age 10 > TTL 5).  The entry IS removed from the map
and the list and the live count drops to 0 (so a second Get fails with
NotFound and the key no longer counts toward `Count()`), but the Get
itself RETURNS THE STALE VALUE with a nil error — `cache.go` has a single
`return val, nil` after the expiry branch — instead of failing with
NotFound as the claim and the spec state. -/
theorem get_expired_removes_entry_but_returns_value :
    ((((LRUCache.mk0 2 5 : LRUCache Nat Nat).set 0 1 0).get 0 10).1
        = Except.ok 1
    ∧ (((LRUCache.mk0 2 5 : LRUCache Nat Nat).set 0 1 0).get 0 10).2.l = []
    ∧ (((LRUCache.mk0 2 5 : LRUCache Nat Nat).set 0 1 0).get 0
        10).2.storeKeys = []
    ∧ (((LRUCache.mk0 2 5 : LRUCache Nat Nat).set 0 1 0).get 0 10).2.count
        = 0
    ∧ itemsOp (some ((((LRUCache.mk0 2 5 : LRUCache Nat Nat).set 0 1
        0).get 0 10).2)) = 0
    ∧ ((((LRUCache.mk0 2 5 : LRUCache Nat Nat).set 0 1 0).get 0 10).2.get
        0 10).1 = Except.error CacheErr.notFound) := by
  decide

/-! ## Claim C5: no timestamp refresh on touch (corrected) -/

/-- C5 counterexample: capacity 2, TTL 5; `Set(0, 1)` at t = 0, then a
non-expired `Get(0)` at t = 3, and separately a `Set(0, 9)` at t = 3.  The
claim says the entry's timestamp is refreshed to the current time (3);
`updateItem` in `cache.go` leaves it at 0. -/
theorem get_hit_does_not_refresh_timestamp :
    ((((((LRUCache.mk0 2 5 : LRUCache Nat Nat).set 0 1 0).get 0
        3).2.l.find? (fun i => i.key == 0)).map Item.ts) = some 0
    ∧ (((((LRUCache.mk0 2 5 : LRUCache Nat Nat).set 0 1 0).get 0
        3).2.l.find? (fun i => i.key == 0)).map Item.ts) ≠ some 3
    ∧ (((((LRUCache.mk0 2 5 : LRUCache Nat Nat).set 0 1 0).set 0 9
        3).l.find? (fun i => i.key == 0)).map Item.ts) = some 0
    ∧ (((((LRUCache.mk0 2 5 : LRUCache Nat Nat).set 0 1 0).set 0 9
        3).l.find? (fun i => i.key == 0)).map Item.ts) ≠ some 3) := by
  decide

/-- C5 amended: on a Get hit of a non-expired entry, and on a Set of an
already-present key, the entry is moved to the front of the recency list
with its value updated in place (to the Get's returned value, resp. the
Set's new value), the count is NOT incremented, the lookup map is
unchanged — but the timestamp KEEPS its original value; it is not
refreshed to the current time. -/
theorem touch_moves_to_front_keeps_timestamp {c : LRUCache K V} {k : K}
    {itm : Item K V} (v : V) (now : Int)
    (hcont : c.storeKeys.contains k = true)
    (hf : c.l.find? (fun i => i.key == k) = some itm)
    (hexp : ¬(c.expiry > 0 ∧ now - itm.ts > c.expiry)) :
    (c.get k now).2.l =
        { key := k, val := itm.val, ts := itm.ts } ::
          c.l.eraseP (fun i => i.key == k)
    ∧ (c.get k now).2.count = c.count
    ∧ (c.get k now).2.storeKeys = c.storeKeys
    ∧ (c.set k v now).l =
        { key := k, val := v, ts := itm.ts } ::
          c.l.eraseP (fun i => i.key == k)
    ∧ (c.set k v now).count = c.count
    ∧ (c.set k v now).storeKeys = c.storeKeys := by
  rw [get_live now hcont hf hexp, set_of_contains v now hcont,
      updateItem_of_find? itm.val hf, updateItem_of_find? v hf]
  exact ⟨rfl, rfl, rfl, rfl, rfl, rfl⟩

/-- Closed instance of `touch_moves_to_front_keeps_timestamp`: capacity 2,
TTL 5, entry (0 ↦ 1) set at t = 0, touched at t = 3. -/
theorem touch_moves_to_front_keeps_timestamp_witness :
    (((LRUCache.mk0 2 5 : LRUCache Nat Nat).set 0 1 0).get 0 3).2.l =
        { key := 0, val := 1, ts := 0 } ::
          (((LRUCache.mk0 2 5 : LRUCache Nat Nat).set 0 1 0).l.eraseP
            (fun i => i.key == 0))
    ∧ (((LRUCache.mk0 2 5 : LRUCache Nat Nat).set 0 1 0).get 0 3).2.count =
        ((LRUCache.mk0 2 5 : LRUCache Nat Nat).set 0 1 0).count
    ∧ (((LRUCache.mk0 2 5 : LRUCache Nat Nat).set 0 1 0).get 0
        3).2.storeKeys =
        ((LRUCache.mk0 2 5 : LRUCache Nat Nat).set 0 1 0).storeKeys
    ∧ (((LRUCache.mk0 2 5 : LRUCache Nat Nat).set 0 1 0).set 0 9 3).l =
        { key := 0, val := 9, ts := 0 } ::
          (((LRUCache.mk0 2 5 : LRUCache Nat Nat).set 0 1 0).l.eraseP
            (fun i => i.key == 0))
    ∧ (((LRUCache.mk0 2 5 : LRUCache Nat Nat).set 0 1 0).set 0 9 3).count =
        ((LRUCache.mk0 2 5 : LRUCache Nat Nat).set 0 1 0).count
    ∧ (((LRUCache.mk0 2 5 : LRUCache Nat Nat).set 0 1 0).set 0 9
        3).storeKeys =
        ((LRUCache.mk0 2 5 : LRUCache Nat Nat).set 0 1 0).storeKeys :=
  @touch_moves_to_front_keeps_timestamp Nat Nat _
    ((LRUCache.mk0 2 5 : LRUCache Nat Nat).set 0 1 0) 0
    { key := 0, val := 1, ts := 0 } 9 3 (by decide) (by decide) (by decide)

/-! ## Claim C9: operations on a nil cache (corrected) -/

/-- C9 counterexample: `Items()` (the spec's `Count()`) on a nil cache does
not fail with NotInitialized — its signature has no error channel and it
returns the ordinary value 0, the same value a freshly constructed valid
cache returns. -/
theorem items_nil_returns_zero :
    itemsOp (none : Option (LRUCache Nat Nat)) = 0
    ∧ itemsOp (some (LRUCache.mk0 1 0 : LRUCache Nat Nat)) = 0 := by
  decide

/-- C9 amended: on a nil cache, Get and Set fail with NotInitialized
(without crashing); Items/Count returns 0 with no error indication. -/
theorem nil_cache_op_results (k : K) (v : V) (now : Int) :
    getOp (none : Option (LRUCache K V)) k now =
        (Except.error CacheErr.notInit, none)
    ∧ setOp (none : Option (LRUCache K V)) k v now =
        (some CacheErr.notInit, none)
    ∧ itemsOp (none : Option (LRUCache K V)) = 0 :=
  ⟨rfl, rfl, rfl⟩

/-! ## Claim C7: router construction -/

theorem one_le_normBuckets (bs : Int) : 1 ≤ normBuckets bs := by
  unfold normBuckets
  by_cases h : bs < 1 <;> simp [h] <;> omega

theorem normBuckets_le_normSize (sz bs1 : Int) : bs1 ≤ normSize sz bs1 := by
  unfold normSize
  by_cases h : sz < bs1 <;> simp [h] <;> omega

/-- The shard capacity that `NewComboLRUCache` computes is positive, so the
`NewLRUCache` guard never fires. -/
theorem shard_capacity_pos (sz bs : Int) :
    1 ≤ (normSize sz (normBuckets bs)).tdiv (normBuckets bs) := by
  have hb := one_le_normBuckets bs
  have hs := normBuckets_le_normSize sz (normBuckets bs)
  rw [Int.tdiv_eq_ediv (by omega) (by omega)]
  exact (Int.le_ediv_iff_mul_le (by omega)).2 (by omega)

/-- C7: `NewComboLRUCache(S, B, TTL, h)` normalizes `B` to at least 1, then
`S` to at least the normalized `B`, and creates exactly (normalized) `B`
shards, each a fresh `LRUCache` of capacity `S / B` (Go integer division,
remainder lost) sharing the same TTL; the router keeps the caller-supplied
hash function. -/
theorem newComboLRUCache_normalizes_and_splits (sz bs e : Int)
    (h : K → Nat) :
    ∃ cc : ComboLRUCache K V,
      newComboLRUCache sz bs e h = some cc
      ∧ cc.hash = h
      ∧ (cc.caches.length : Int) = normBuckets bs
      ∧ ∀ sh ∈ cc.caches,
          sh = LRUCache.mk0 ((normSize sz (normBuckets bs)).tdiv
            (normBuckets bs)) e := by
  have hpos := shard_capacity_pos sz bs
  have hb := one_le_normBuckets bs
  have hguard : newLRUCache (K := K) (V := V)
      ((normSize sz (normBuckets bs)).tdiv (normBuckets bs)) e =
      some (LRUCache.mk0
        ((normSize sz (normBuckets bs)).tdiv (normBuckets bs)) e) := by
    unfold newLRUCache
    rw [if_neg (by omega)]
  refine ⟨{ hash := h
          , caches := List.replicate (normBuckets bs).toNat
              (LRUCache.mk0
                ((normSize sz (normBuckets bs)).tdiv (normBuckets bs)) e) },
         ?_, rfl, ?_, ?_⟩
  · unfold newComboLRUCache
    rw [hguard]
  · simp only [List.length_replicate]
    omega
  · intro sh hsh
    exact (List.mem_replicate.1 hsh).2

/-! ## More operation facts -/

theorem find?_isSome_of_mem_keys {l : List (Item K V)} {k : K}
    (h : k ∈ l.map Item.key) :
    ∃ itm, l.find? (fun i => i.key == k) = some itm := by
  obtain ⟨itm, hmem, hkey⟩ := List.mem_map.1 h
  have : (l.find? (fun i => i.key == k)).isSome = true :=
    List.find?_isSome.2 ⟨itm, hmem, by simp [hkey]⟩
  cases hf : l.find? (fun i => i.key == k) with
  | none => rw [hf] at this; cases this
  | some itm2 => exact ⟨itm2, rfl⟩

theorem mem_keys_of_contains {c : LRUCache K V} (hc : WF c) {k : K}
    (hmem : c.storeKeys.contains k = true) : k ∈ keysOf c :=
  hc.perm.mem_iff.1 (list_contains_iff.1 hmem)

theorem contains_mapInsert (m : List K) (k : K) :
    (mapInsert m k).contains k = true := by
  unfold mapInsert
  cases hc : m.contains k with
  | true => simpa using hc
  | false => simp

/-- `addItem` always produces a front item `⟨k, v, now⟩` pushed onto the
state left by the (possible) eviction. -/
theorem addItem_shape (c : LRUCache K V) (k : K) (v : V) (now : Int) :
    ∃ c1 : LRUCache K V, c.addItem k v now =
      { c1 with l := { key := k, val := v, ts := now } :: c1.l
              , storeKeys := mapInsert c1.storeKeys k
              , count := c1.count + 1 } := by
  unfold LRUCache.addItem
  exact ⟨_, rfl⟩

/-- After any `Set(k, v)`, the map contains `k` and the list's first
`k`-item carries the value `v` (with the old timestamp on the update path,
`now` on the insert path). -/
theorem set_then_lookup {c : LRUCache K V} (hc : WF c) (k : K) (v : V)
    (now : Int) :
    ∃ t, (c.set k v now).storeKeys.contains k = true
      ∧ (c.set k v now).l.find? (fun i => i.key == k) =
          some { key := k, val := v, ts := t } := by
  cases hcc : c.storeKeys.contains k with
  | true =>
      obtain ⟨itm, hf⟩ :=
        find?_isSome_of_mem_keys (mem_keys_of_contains hc hcc)
      rw [set_of_contains v now hcc, updateItem_of_find? v hf]
      exact ⟨itm.ts, hcc, by simp [List.find?_cons]⟩
  | false =>
      rw [set_of_not_contains v now hcc]
      obtain ⟨c1, heq⟩ := addItem_shape c k v now
      rw [heq]
      exact ⟨now, contains_mapInsert c1.storeKeys k, by simp [List.find?_cons]⟩

/-- A `Get` whose key is mapped and whose first list item is `⟨k, v, t⟩`
returns `Except.ok v` — in the live AND in the expired branch. -/
theorem get_returns_found_val {c : LRUCache K V} {k : K} {v : V} {t : Int}
    (now : Int) (hcont : c.storeKeys.contains k = true)
    (hf : c.l.find? (fun i => i.key == k) =
      some { key := k, val := v, ts := t }) :
    (c.get k now).1 = Except.ok v := by
  by_cases hexp : c.expiry > 0 ∧ now - t > c.expiry
  · rw [get_expired now hcont hf hexp]
  · rw [get_live now hcont hf hexp]

/-! ## Claim C10: Set on an existing key is a frame-preserving update -/

/-- C10: a Set on a key already present in a non-nil (reachable) cache
modifies only that entry's value and recency position: the count is
unchanged, the lookup map is unchanged, no entry is evicted (the list
keeps its length), the key now maps to the new value, and every other
key's presence and associated value are unchanged. -/
theorem set_existing_key_frame {c : LRUCache K V} (hc : WF c) {k : K}
    (v : V) (now : Int) (hmem : c.storeKeys.contains k = true) :
    (c.set k v now).count = c.count
    ∧ (c.set k v now).storeKeys = c.storeKeys
    ∧ (c.set k v now).l.length = c.l.length
    ∧ lookupVal (c.set k v now) k = some v
    ∧ ∀ k2, k2 ≠ k → lookupVal (c.set k v now) k2 = lookupVal c k2 := by
  have hkmem : k ∈ keysOf c := mem_keys_of_contains hc hmem
  obtain ⟨itm, hf⟩ := find?_isSome_of_mem_keys hkmem
  rw [set_of_contains v now hmem, updateItem_of_find? v hf]
  have hlen := length_eraseP_key (l := c.l) (k := k) hkmem
  refine ⟨rfl, rfl, ?_, ?_, ?_⟩
  · simp only [List.length_cons]
    omega
  · simp [lookupVal, List.find?_cons]
  · intro k2 hk2
    show (List.find? (fun i => i.key == k2) _).map Item.val = _
    rw [List.find?_cons]
    have : (({ key := k, val := v, ts := itm.ts } : Item K V).key == k2) =
        false := by
      simp
      exact fun he => hk2 he.symm
    rw [this]
    rw [find?_key_eraseP_ne hk2]
    rfl

/-- Closed instance of `set_existing_key_frame`: state {0 ↦ 1, 1 ↦ 2},
Set(0, 9). -/
theorem set_existing_key_frame_witness :
    ((((LRUCache.mk0 2 0 : LRUCache Nat Nat).set 0 1 0).set 1 2 0).set 0 9
        5).count =
      (((LRUCache.mk0 2 0 : LRUCache Nat Nat).set 0 1 0).set 1 2 0).count
    ∧ ((((LRUCache.mk0 2 0 : LRUCache Nat Nat).set 0 1 0).set 1 2 0).set 0 9
        5).storeKeys =
      (((LRUCache.mk0 2 0 : LRUCache Nat Nat).set 0 1 0).set 1 2 0).storeKeys
    ∧ ((((LRUCache.mk0 2 0 : LRUCache Nat Nat).set 0 1 0).set 1 2 0).set 0 9
        5).l.length =
      (((LRUCache.mk0 2 0 : LRUCache Nat Nat).set 0 1 0).set 1 2 0).l.length
    ∧ lookupVal ((((LRUCache.mk0 2 0 : LRUCache Nat Nat).set 0 1 0).set 1 2
        0).set 0 9 5) 0 = some 9
    ∧ ∀ k2, k2 ≠ 0 →
        lookupVal ((((LRUCache.mk0 2 0 : LRUCache Nat Nat).set 0 1 0).set 1
          2 0).set 0 9 5) k2 =
        lookupVal (((LRUCache.mk0 2 0 : LRUCache Nat Nat).set 0 1 0).set 1 2
          0) k2 :=
  set_existing_key_frame
    (wf_set (wf_set (wf_mk0 2 0) 0 1 0) 1 2 0) 9 5 (by decide)

/-! ## Claim C8: Set-then-Get round-trip -/

/-- Single-shard round-trip: `Set(k, v)` immediately followed by `Get(k)`
(same instant, no intervening operations) succeeds with exactly `v`. -/
theorem lru_set_then_get {c : LRUCache K V} (hc : WF c) (k : K) (v : V)
    (now : Int) : ((c.set k v now).get k now).1 = Except.ok v := by
  obtain ⟨t, hcont, hf⟩ := set_then_lookup hc k v now
  exact get_returns_found_val now hcont hf

/-- The router's hash and shard count are untouched by `Set`, so the
route of any key is stable across it. -/
theorem routeKey_set (cc : ComboLRUCache K V) (k k2 : K) (v : V)
    (now : Int) : ((cc.set k v now).2).routeKey k2 = cc.routeKey k2 := by
  unfold ComboLRUCache.set
  cases hidx : cc.caches[cc.routeKey k]? with
  | none => rfl
  | some sh => simp [ComboLRUCache.routeKey]

/-- C8: `Set(k, v)` followed immediately by `Get(k)` — no intervening
operations — succeeds and returns exactly `v`: on any reachable
single-shard cache, and through the router (with every shard reachable
and at least one shard, as the constructor guarantees) regardless of
which shard `k` routes to. -/
theorem set_then_get_returns_value {c : LRUCache K V} (hc : WF c) (k : K)
    (v : V) (now : Int) :
    ((c.set k v now).get k now).1 = Except.ok v
    ∧ ∀ cc : ComboLRUCache K V, (∀ sh ∈ cc.caches, WF sh) →
        cc.caches ≠ [] →
        ((cc.set k v now).2.get k now).1 = Except.ok v := by
  refine ⟨lru_set_then_get hc k v now, ?_⟩
  intro cc hwf hne
  have hlen : 0 < cc.caches.length := List.length_pos.2 hne
  have hidx : cc.routeKey k < cc.caches.length :=
    Nat.mod_lt _ hlen
  have hsome : cc.caches[cc.routeKey k]? = some cc.caches[cc.routeKey k] :=
    List.getElem?_eq_getElem hidx
  have hset : (cc.set k v now).2 =
      { cc with
          caches :=
            cc.caches.set (cc.routeKey k)
              (cc.caches[cc.routeKey k].set k v now) } := by
    unfold ComboLRUCache.set
    rw [hsome]
  have hroute : ((cc.set k v now).2).routeKey k = cc.routeKey k :=
    routeKey_set cc k k v now
  have hget : ((cc.set k v now).2).caches[((cc.set k v now).2).routeKey k]? =
      some (cc.caches[cc.routeKey k].set k v now) := by
    rw [hroute, hset]
    show (cc.caches.set (cc.routeKey k) _)[cc.routeKey k]? = _
    exact List.getElem?_set_self hidx
  unfold ComboLRUCache.get
  rw [hget]
  exact lru_set_then_get (hwf _ (List.getElem_mem hidx)) k v now

/-- Closed instance of `set_then_get_returns_value`: fresh capacity-3,
TTL-0 cache; router with 2 shards and hash k ↦ k; key 5, value 42. -/
theorem set_then_get_returns_value_witness :
    (((LRUCache.mk0 3 0 : LRUCache Nat Nat).set 5 42 1).get 5 1).1 =
        Except.ok 42
    ∧ ∀ cc : ComboLRUCache Nat Nat, (∀ sh ∈ cc.caches, WF sh) →
        cc.caches ≠ [] →
        ((cc.set 5 42 1).2.get 5 1).1 = Except.ok 42 :=
  set_then_get_returns_value (wf_mk0 3 0) 5 42 1

/-! ## Field stability of the operations -/

theorem evictIfFull_sz (c : LRUCache K V) : c.evictIfFull.sz = c.sz := by
  rcases evictIfFull_cases c with ⟨-, heq⟩ | ⟨-, -, heq⟩ |
    ⟨last, -, -, heq⟩ <;> rw [heq] <;> rfl

theorem updateItem_sz (c : LRUCache K V) (k : K) (v : V) :
    (c.updateItem k v).sz = c.sz := by
  cases hf : c.l.find? (fun i => i.key == k) with
  | none => rw [updateItem_of_none v hf]
  | some itm => rw [updateItem_of_find? v hf]

theorem set_sz (c : LRUCache K V) (k : K) (v : V) (now : Int) :
    (c.set k v now).sz = c.sz := by
  cases hcc : c.storeKeys.contains k with
  | true => rw [set_of_contains v now hcc]; exact updateItem_sz c k v
  | false =>
      rw [set_of_not_contains v now hcc]
      show c.evictIfFull.sz = c.sz
      exact evictIfFull_sz c

theorem get_sz (c : LRUCache K V) (k : K) (now : Int) :
    (c.get k now).2.sz = c.sz := by
  cases hcc : c.storeKeys.contains k with
  | false => rw [get_of_not_contains now hcc]
  | true =>
      cases hf : c.l.find? (fun i => i.key == k) with
      | none =>
          unfold LRUCache.get
          rw [hcc, if_pos rfl, hf]
      | some itm =>
          by_cases hexp : c.expiry > 0 ∧ now - itm.ts > c.expiry
          · rw [get_expired now hcc hf hexp]; rfl
          · rw [get_live now hcc hf hexp]; exact updateItem_sz c k itm.val

/-! ## Claim C4: list length, map size and counter always agree -/

/-- C4: after every sequence of completed Get/Set (and Items) operations
from a freshly constructed single-shard cache, the recency-list length,
the lookup-map size and the internal live-entry counter are all equal,
and `Items()` (the spec's `Count()`) returns that common value. -/
theorem sizes_agree_after_ops (sz e : Int) (ops : List (CacheOp K V)) :
    ((LRUCache.mk0 sz e : LRUCache K V).applyOps ops).l.length =
      ((LRUCache.mk0 sz e : LRUCache K V).applyOps ops).storeKeys.length
    ∧ ((LRUCache.mk0 sz e : LRUCache K V).applyOps ops).count =
      (((LRUCache.mk0 sz e : LRUCache K V).applyOps ops).l.length : Int)
    ∧ itemsOp (some ((LRUCache.mk0 sz e : LRUCache K V).applyOps ops)) =
      ((LRUCache.mk0 sz e : LRUCache K V).applyOps ops).count := by
  have h := wf_applyOps (wf_mk0 (K := K) (V := V) sz e) ops
  refine ⟨?_, h.countEq, ?_⟩
  · have hp := h.perm.length_eq
    simpa [keysOf] using hp.symm
  · show (((LRUCache.mk0 sz e : LRUCache K V).applyOps
        ops).l.length : Int) = _
    rw [h.countEq]

/-! ## Capacity bound and eviction order -/

theorem updateItem_count (c : LRUCache K V) (k : K) (v : V) :
    (c.updateItem k v).count = c.count := by
  cases hf : c.l.find? (fun i => i.key == k) with
  | none => rw [updateItem_of_none v hf]
  | some itm => rw [updateItem_of_find? v hf]

/-- Every `Set` keeps the live count within a positive capacity. -/
theorem set_count_le {c : LRUCache K V} (hc : WF c) (hsz : 1 ≤ c.sz)
    (hb : c.count ≤ c.sz) (k : K) (v : V) (now : Int) :
    (c.set k v now).count ≤ c.sz := by
  cases hcc : c.storeKeys.contains k with
  | true =>
      rw [set_of_contains v now hcc, updateItem_count]
      exact hb
  | false =>
      rw [set_of_not_contains v now hcc]
      show c.evictIfFull.count + 1 ≤ c.sz
      rcases evictIfFull_cases c with ⟨hnf, heq⟩ | ⟨hfull, hnone, heq⟩ |
        ⟨last, hlast, hfull, heq⟩
      · rw [heq]; omega
      · have hnil : c.l = [] := List.getLast?_eq_none.1 hnone
        have := hc.countEq
        rw [hnil] at this
        simp at this
        omega
      · rw [heq]
        show c.count - 1 + 1 ≤ c.sz
        omega

/-- `setAll` preserves well-formedness, the capacity field and the
capacity bound. -/
theorem setAll_invariant {c : LRUCache K V} (hc : WF c) (hsz : 1 ≤ c.sz)
    (hb : c.count ≤ c.sz) (kvs : List (K × V × Int)) :
    WF (c.setAll kvs) ∧ (c.setAll kvs).sz = c.sz ∧
      (c.setAll kvs).count ≤ c.sz := by
  induction kvs generalizing c with
  | nil => exact ⟨hc, rfl, hb⟩
  | cons kvt rest ih =>
      simp only [LRUCache.setAll]
      have h1 := wf_set hc kvt.1 kvt.2.1 kvt.2.2
      have h2 := set_sz c kvt.1 kvt.2.1 kvt.2.2
      have h3 := set_count_le hc hsz hb kvt.1 kvt.2.1 kvt.2.2
      have h4 := ih h1 (by omega) (by omega)
      exact ⟨h4.1, by rw [h4.2.1, h2], by have := h4.2.2; omega⟩

/-- The keys after the eviction step: unchanged when not full, otherwise
the back (least-recently-used) key is dropped. -/
theorem keysOf_evictIfFull {c : LRUCache K V} (hc : WF c) (hsz : 1 ≤ c.sz) :
    (¬c.count ≥ c.sz ∧ keysOf c.evictIfFull = keysOf c) ∨
    (c.count ≥ c.sz ∧ keysOf c.evictIfFull = (keysOf c).dropLast) := by
  rcases evictIfFull_cases c with ⟨hnf, heq⟩ | ⟨hfull, hnone, heq⟩ |
    ⟨last, hlast, hfull, heq⟩
  · left; exact ⟨hnf, by rw [heq]⟩
  · have hnil : c.l = [] := List.getLast?_eq_none.1 hnone
    have := hc.countEq
    rw [hnil] at this
    simp at this
    omega
  · right
    refine ⟨hfull, ?_⟩
    rw [heq]
    have hk : keysOf (c.removeItem last.key) =
        (keysOf c).eraseP (fun x => x == last.key) := by
      simp [LRUCache.removeItem, keysOf, keys_eraseP]
    rw [hk]
    have hne : keysOf c ≠ [] := by
      intro hnil
      have hm : List.map Item.key c.l = [] := hnil
      have hln : c.l = [] := List.map_eq_nil.1 hm
      rw [hln] at hlast
      cases hlast
    have hlastkeys : (keysOf c).getLast hne = last.key := by
      have h1 : (keysOf c).getLast? = some last.key := by
        unfold keysOf
        rw [List.getLast?_map, hlast]
        rfl
      have h2 := List.getLast?_eq_getLast (keysOf c) hne
      rw [h1] at h2
      exact (Option.some_inj.1 h2).symm
    rw [← hlastkeys]
    exact eraseP_getLast_of_nodup hne hc.nodup

/-- The keys after a `Set` of a key not yet present: pushed at the front;
when the cache is full the back key is dropped. -/
theorem keysOf_set_new {c : LRUCache K V} (hc : WF c) (hsz : 1 ≤ c.sz)
    {k : K} (hk : k ∉ keysOf c) (v : V) (now : Int) :
    (¬c.count ≥ c.sz ∧ keysOf (c.set k v now) = k :: keysOf c) ∨
    (c.count ≥ c.sz ∧
      keysOf (c.set k v now) = k :: (keysOf c).dropLast) := by
  have hcc : c.storeKeys.contains k = false := by
    cases hcc : c.storeKeys.contains k with
    | false => rfl
    | true =>
        exact absurd (mem_keys_of_contains hc hcc) hk
  rw [set_of_not_contains v now hcc]
  have hadd : keysOf (c.addItem k v now) = k :: keysOf c.evictIfFull := by
    simp [LRUCache.addItem, keysOf]
  rw [hadd]
  rcases keysOf_evictIfFull hc hsz with ⟨hnf, hkeq⟩ | ⟨hfull, hkeq⟩
  · left; exact ⟨hnf, by rw [hkeq]⟩
  · right; exact ⟨hfull, by rw [hkeq]⟩

/-- Folding `Set`s of pairwise-distinct fresh keys into a well-formed
cache whose key list is the `sz`-prefix of a pool `w`: the resulting key
list is the `sz`-prefix of the reversed inserted keys prepended to the
pool (front = most recent). -/
theorem setAll_distinct_keys {sz : Int} (hsz : 1 ≤ sz) :
    ∀ (kvs : List (K × V × Int)) (c : LRUCache K V) (w : List K),
      WF c → c.sz = sz → keysOf c = w.take sz.toNat →
      (∀ x ∈ kvs.map (fun kvt => kvt.1), x ∉ w) →
      (kvs.map (fun kvt => kvt.1)).Nodup →
      keysOf (c.setAll kvs) =
        ((kvs.map (fun kvt => kvt.1)).reverse ++ w).take sz.toNat := by
  intro kvs
  induction kvs with
  | nil =>
      intro c w hc hszc hkeys hdisj hnd
      simpa using hkeys
  | cons kvt rest ih =>
      obtain ⟨k, v, t⟩ := kvt
      intro c w hc hszc hkeys hdisj hnd
      simp only [LRUCache.setAll]
      have hkw : k ∉ w := hdisj k (by simp)
      have hknotin : k ∉ keysOf c := by
        rw [hkeys]
        exact fun hmem => hkw (List.take_subset _ _ hmem)
      have hn1 : 1 ≤ sz.toNat := by omega
      have hcount : c.count = ((keysOf c).length : Int) := by
        rw [hc.countEq]
        unfold keysOf
        rw [List.length_map]
      have hlenkeys : (keysOf c).length = min sz.toNat w.length := by
        rw [hkeys, List.length_take]
      have hrestdisj : ∀ x ∈ rest.map (fun kvt => kvt.1), x ∉ k :: w := by
        intro x hx
        have hxk : x ≠ k := by
          intro he
          exact (List.nodup_cons.1 hnd).1 (he ▸ hx)
        have hxw : x ∉ w := hdisj x (by simp [hx])
        simp [hxk, hxw]
      have hrestnd : (rest.map (fun kvt => kvt.1)).Nodup :=
        (List.nodup_cons.1 hnd).2
      have hszset : (c.set k v t).sz = sz := by rw [set_sz, hszc]
      have hgoalshape :
          ((k :: rest.map (fun kvt => kvt.1)).reverse ++ w) =
            (rest.map (fun kvt => kvt.1)).reverse ++ (k :: w) := by
        simp
      rcases keysOf_set_new hc (by omega) hknotin v t with
        ⟨hnf, hkeq⟩ | ⟨hfull, hkeq⟩
      · -- not full: every key fits
        have hlt : (keysOf c).length < sz.toNat := by
          rw [hszc] at hnf
          omega
        have hwlen : w.length < sz.toNat := by omega
        have hwtake : w.take sz.toNat = w :=
          List.take_of_length_le (by omega)
        have hkeys2 : keysOf (c.set k v t) = (k :: w).take sz.toNat := by
          rw [hkeq, hkeys, hwtake]
          rw [List.take_of_length_le (by simp; omega)]
        have hih := ih (c.set k v t) (k :: w) (wf_set hc k v t) hszset
          hkeys2 hrestdisj hrestnd
        rw [hih]
        show _ = ((k :: rest.map (fun kvt => kvt.1)).reverse ++ w).take _
        rw [hgoalshape]
      · -- full: the back key is dropped
        have hge : sz.toNat ≤ (keysOf c).length := by
          rw [hszc] at hfull
          omega
        have hwlen : sz.toNat ≤ w.length := by omega
        have hlen : (keysOf c).length = sz.toNat := by omega
        obtain ⟨m, hm⟩ : ∃ m, sz.toNat = m + 1 := ⟨sz.toNat - 1, by omega⟩
        have hdrop : (keysOf c).dropLast = w.take m := by
          rw [hkeys, List.dropLast_eq_take, List.length_take,
              List.take_take]
          congr 1
          omega
        have hkeys2 : keysOf (c.set k v t) = (k :: w).take sz.toNat := by
          rw [hkeq, hdrop, hm, List.take_succ_cons]
        have hih := ih (c.set k v t) (k :: w) (wf_set hc k v t) hszset
          hkeys2 hrestdisj hrestnd
        rw [hih]
        show _ = ((k :: rest.map (fun kvt => kvt.1)).reverse ++ w).take _
        rw [hgoalshape]

/-! ## Claim C2: capacity invariant and LRU eviction order -/

/-- C2: for every shard of capacity `sz ≥ 1` and any TTL: (a) for every
sequence of `Set` calls from a fresh shard, the live entry count never
exceeds `sz`; (b) after inserting `sz + kk` distinct keys (`kk ≥ 1`),
the surviving keys are exactly the last `sz` inserted (front = most
recent), i.e. exactly the `kk` least-recently-used (earliest-inserted)
keys have been evicted, and `Items()` (the spec's `Count()`) equals
`sz`. -/
theorem set_capacity_invariant_and_lru_eviction {sz : Int} (e : Int)
    (hsz : 1 ≤ sz) :
    (∀ kvs : List (K × V × Int),
        (((LRUCache.mk0 sz e : LRUCache K V).setAll kvs).l.length : Int)
          ≤ sz)
    ∧ ∀ (kvs : List (K × V × Int)) (kk : Nat), 1 ≤ kk →
        (kvs.map (fun kvt => kvt.1)).Nodup →
        kvs.length = sz.toNat + kk →
        keysOf ((LRUCache.mk0 sz e : LRUCache K V).setAll kvs) =
            ((kvs.map (fun kvt => kvt.1)).drop kk).reverse
        ∧ (∀ x ∈ (kvs.map (fun kvt => kvt.1)).take kk,
            x ∉ keysOf ((LRUCache.mk0 sz e : LRUCache K V).setAll kvs))
        ∧ ((LRUCache.mk0 sz e : LRUCache K V).setAll kvs).items = sz := by
  constructor
  · intro kvs
    have h := setAll_invariant (wf_mk0 (K := K) (V := V) sz e)
      hsz (show (0 : Int) ≤ sz by omega) kvs
    have hb := h.2.2
    rw [h.1.countEq] at hb
    exact hb
  · intro kvs kk hkk hnd hlen
    have hkeys := setAll_distinct_keys hsz kvs
      (LRUCache.mk0 (K := K) (V := V) sz e) [] (wf_mk0 sz e) rfl
      (by simp [keysOf, LRUCache.mk0]) (by simp) hnd
    have hks : keysOf ((LRUCache.mk0 sz e : LRUCache K V).setAll kvs) =
        (kvs.map (fun kvt => kvt.1)).reverse.take sz.toNat := by
      simpa using hkeys
    have hmaplen : (kvs.map (fun kvt => kvt.1)).length = sz.toNat + kk := by
      rw [List.length_map]
      exact hlen
    have h1 : (kvs.map (fun kvt => kvt.1)).reverse.take sz.toNat =
        ((kvs.map (fun kvt => kvt.1)).drop kk).reverse := by
      rw [List.take_reverse, hmaplen]
      congr 2
      omega
    refine ⟨by rw [hks, h1], ?_, ?_⟩
    · intro x hxtake
      rw [hks, h1, List.mem_reverse]
      exact fun hxdrop =>
        (List.disjoint_take_drop hnd (le_refl kk)) hxtake hxdrop
    · show ((((LRUCache.mk0 sz e : LRUCache K V).setAll
          kvs).l.length : Nat) : Int) = sz
      have h2 : (keysOf ((LRUCache.mk0 sz e : LRUCache K V).setAll
          kvs)).length = sz.toNat := by
        rw [hks, h1, List.length_reverse, List.length_drop, hmaplen]
        omega
      have h3 : (keysOf ((LRUCache.mk0 sz e : LRUCache K V).setAll
          kvs)).length = ((LRUCache.mk0 sz e : LRUCache K V).setAll
          kvs).l.length := by
        unfold keysOf
        rw [List.length_map]
      omega

/-- Closed instance of `set_capacity_invariant_and_lru_eviction`:
capacity 2, inserting the three distinct keys 0, 1, 2 (values 10, 11,
12): the bound holds, key 0 is evicted, keys [2, 1] remain (front =
most recent) and the count is 2. -/
theorem set_capacity_invariant_and_lru_eviction_witness :
    ((((LRUCache.mk0 2 0 : LRUCache Nat Nat).setAll
        [(0, 10, 0), (1, 11, 0), (2, 12, 0)]).l.length : Int) ≤ 2)
    ∧ keysOf ((LRUCache.mk0 2 0 : LRUCache Nat Nat).setAll
          [(0, 10, 0), (1, 11, 0), (2, 12, 0)]) =
        (((([(0, 10, 0), (1, 11, 0), (2, 12, 0)] :
          List (Nat × Nat × Int)).map (fun kvt => kvt.1)).drop 1).reverse)
    ∧ (∀ x ∈ (([(0, 10, 0), (1, 11, 0), (2, 12, 0)] :
          List (Nat × Nat × Int)).map (fun kvt => kvt.1)).take 1,
        x ∉ keysOf ((LRUCache.mk0 2 0 : LRUCache Nat Nat).setAll
          [(0, 10, 0), (1, 11, 0), (2, 12, 0)]))
    ∧ ((LRUCache.mk0 2 0 : LRUCache Nat Nat).setAll
        [(0, 10, 0), (1, 11, 0), (2, 12, 0)]).items = 2 := by
  have h := set_capacity_invariant_and_lru_eviction
    (K := Nat) (V := Nat) 0 (by decide : (1 : Int) ≤ 2)
  have h2 := h.2 [(0, 10, 0), (1, 11, 0), (2, 12, 0)] 1 (by decide)
    (by decide) (by decide)
  exact ⟨h.1 [(0, 10, 0), (1, 11, 0), (2, 12, 0)], h2.1, h2.2.1, h2.2.2⟩

/-! ## Claim C6: one-shard router is the single-shard cache -/

/-- One router step on a singleton shard list delegates to the shard and
keeps the singleton shape. -/
theorem combo_singleton_step (h : K → Nat) (c : LRUCache K V)
    (op : CacheOp K V) :
    ComboLRUCache.step { hash := h, caches := [c] } op =
      ((c.step op).1, { hash := h, caches := [(c.step op).2] }) := by
  cases op with
  | get k now =>
      have hr : ComboLRUCache.routeKey { hash := h, caches := [c] } k = 0 := by
        simp [ComboLRUCache.routeKey, Nat.mod_one]
      show (let r := ComboLRUCache.get { hash := h, caches := [c] } k now
            (CacheObs.got r.1, r.2)) = _
      unfold ComboLRUCache.get
      rw [hr]
      rfl
  | set k v now =>
      have hr : ComboLRUCache.routeKey { hash := h, caches := [c] } k = 0 := by
        simp [ComboLRUCache.routeKey, Nat.mod_one]
      show (let r := ComboLRUCache.set { hash := h, caches := [c] } k v now
            (CacheObs.setRes r.1, r.2)) = _
      unfold ComboLRUCache.set
      rw [hr]
      rfl
  | items =>
      show (CacheObs.counted (ComboLRUCache.items _), _) = _
      have hit : ComboLRUCache.items { hash := h, caches := [c] } =
          c.items := by
        unfold ComboLRUCache.items
        simp
      rw [hit]
      rfl

/-- A singleton router and its unique shard produce identical traces. -/
theorem combo_singleton_run (h : K → Nat) (c : LRUCache K V)
    (ops : List (CacheOp K V)) :
    ComboLRUCache.run { hash := h, caches := [c] } ops = c.run ops := by
  induction ops generalizing c with
  | nil => rfl
  | cons op ops ih =>
      show (ComboLRUCache.step _ op).1 ::
          (ComboLRUCache.step _ op).2.run ops =
        (c.step op).1 :: (c.step op).2.run ops
      rw [combo_singleton_step h c op]
      rw [ih]

/-- C6: a router constructed with shard count 1 is observationally
equivalent to a bare single-shard cache with the same capacity and TTL:
for every hash function and every sequence of Get/Set/Items operations
it produces the identical trace of values, errors and counts. -/
theorem combo_one_shard_equiv_single (sz e : Int) (hsz : 1 ≤ sz)
    (h : K → Nat) (ops : List (CacheOp K V)) :
    (newComboLRUCache sz 1 e h).map (fun cc => cc.run ops) =
      (newLRUCache (K := K) (V := V) sz e).map (fun c => c.run ops) := by
  have hnew : newLRUCache (K := K) (V := V) sz e =
      some (LRUCache.mk0 sz e) := by
    unfold newLRUCache
    rw [if_neg (by omega)]
  have harg : (normSize sz (normBuckets 1)).tdiv (normBuckets 1) = sz := by
    show (normSize sz 1).tdiv 1 = sz
    unfold normSize
    rw [if_neg (by omega), Int.tdiv_one]
  have hcombo : newComboLRUCache (K := K) (V := V) sz 1 e h =
      some { hash := h, caches := [LRUCache.mk0 sz e] } := by
    unfold newComboLRUCache
    rw [harg, hnew]
    rfl
  rw [hcombo, hnew]
  show some (ComboLRUCache.run _ ops) = some (LRUCache.run _ ops)
  rw [combo_singleton_run h (LRUCache.mk0 sz e) ops]

/-- Closed instance of `combo_one_shard_equiv_single`: capacity 2, TTL 5,
hash k ↦ k + 7, a mixed operation sequence. -/
theorem combo_one_shard_equiv_single_witness :
    (newComboLRUCache (K := Nat) (V := Nat) 2 1 5 (fun k => k + 7)).map
        (fun cc => cc.run [CacheOp.set 0 1 0, CacheOp.get 0 1,
          CacheOp.get 3 1, CacheOp.set 1 2 2, CacheOp.set 2 3 3,
          CacheOp.items, CacheOp.get 0 9]) =
      (newLRUCache (K := Nat) (V := Nat) 2 5).map
        (fun c => c.run [CacheOp.set 0 1 0, CacheOp.get 0 1,
          CacheOp.get 3 1, CacheOp.set 1 2 2, CacheOp.set 2 3 3,
          CacheOp.items, CacheOp.get 0 9]) :=
  combo_one_shard_equiv_single 2 5 (by decide) (fun k => k + 7)
    [CacheOp.set 0 1 0, CacheOp.get 0 1, CacheOp.get 3 1,
     CacheOp.set 1 2 2, CacheOp.set 2 3 3, CacheOp.items, CacheOp.get 0 9]
